import Mathlib

set_option maxHeartbeats 1000000

namespace RotatingFile

/-! # Shallow embedding of `src/lib.rs` (rotating-file-rs)

The writer is an `AsyncWrite` implementation that rotates its underlying
file once a line- or byte-count threshold is reached.  We embed:

* the counter logic (`countlines`, the `shouldrotate` check),
* the two-state machine `StateFuture` driven by `poll_write` /
  `poll_flush` / `poll_shutdown`, with the boxed rotation future modelled
  as a pending-poll count plus a final result supplied by the
  environment,
* the path manipulation of `get_rotate_dest` and `compress` (Rust
  `Path::extension` / `set_extension` semantics on the final component),
* the constructor `new` and the rotation unit `rotate_fut`/`compress`
  over a small file-system model with injected I/O failures.
-/

/-- Rotation trigger `RotationMode` from src/lib.rs. -/
inductive RotationMode : Type
  | lines (n : Nat)
  | bytes (n : Nat)
deriving DecidableEq

/-- Function `countlines` from src/lib.rs: the number of `b'\n'` (byte 10) in the
buffer (`buf.iter().filter(|x| **x == b'\n').count()`). -/
def countlines (buf : List Nat) : Nat :=
  (buf.filter (fun x => x == 10)).length

/-- Final outcome of one rotation task (successfully handing back a fresh
handle, or an I/O error code). -/
inductive RotResult : Type
  | ok
  | err (e : Nat)
deriving DecidableEq

/-- Model of the boxed rotation future stored in `StateFuture::Rotating`:
it answers `Pending` to its next `steps` polls and then resolves with
`result`.  The behaviour is supplied by the environment when the future is
created. -/
structure RotFut where
  steps : Nat
  result : RotResult
deriving DecidableEq

/-- State `StateFuture` from src/lib.rs. -/
inductive StateFuture : Type
  | fileReady (lines bytes : Nat)
  | rotating (fut : RotFut)
deriving DecidableEq

/-- Fields of `RotatingFile` relevant to the state machine: the rotation
mode, the state cell, and whether `file` is `Some` (the handle itself is
abstract). -/
structure Writer where
  rotation : RotationMode
  state : StateFuture
  hasFile : Bool
deriving DecidableEq

/-- The `shouldrotate` check in `poll_write`: `lines >= l` resp.
`bytes >= b`. -/
def shouldrotate (m : RotationMode) (lines bytes : Nat) : Bool :=
  match m with
  | .lines l => decide (lines ≥ l)
  | .bytes b => decide (bytes ≥ b)

/-- Environment-chosen outcome of the single underlying file write a
`poll_write` call may perform. -/
inductive WriteRes : Type
  | ok (n : Nat)
  | err (e : Nat)
deriving DecidableEq

/-- Outcome of one `poll_write` call.  `panic` models a failing `unwrap`
on the `file` option; `stuck` marks exhaustion of the supply of modelled
rotation futures (a bound of the finite model, not a program behaviour). -/
inductive PollW : Type
  | pending
  | ok (n : Nat)
  | err (e : Nat)
  | panic
  | stuck
deriving DecidableEq

/-- Outcome of one `poll_flush` / `poll_shutdown` call. -/
inductive PollF : Type
  | pending
  | ok
  | err (e : Nat)
  | panic
deriving DecidableEq

/-- Rank used for the termination measure of `pollWrite`. -/
def StateFuture.rank : StateFuture → Nat
  | .fileReady _ _ => 0
  | .rotating _ => 1

/-- Model of `RotatingFile::poll_write` (src/lib.rs).  The `loop` is the
source's retry loop.  `futs` supplies the behaviour of each rotation
future started by `me.rotate()` during this call (the source creates the
future; its eventual poll answers are environment-determined), and `wr`
is the outcome of the at-most-one underlying `poll_write` on the file.

* `FileReady(lines, bytes)`: if `shouldrotate`, `me.rotate()` takes the
  file handle (`file.take().unwrap()`, panicking when absent) and the
  loop continues in `Rotating`; otherwise the buffer is written
  (`file.as_mut().unwrap()`), and on success the counters are updated by
  the bytes written and the newlines in the written slice.
* `Rotating(fut)`: polling the future yields `Pending`, a fresh handle
  (adopted, counters reset to zero, loop continues), or an error
  (returned, state unchanged). -/
def pollWrite : Writer → List Nat → List RotFut → WriteRes → Writer × PollW
  | ⟨m, .fileReady lines bytes, hf⟩, buf, futs, wr =>
    if shouldrotate m lines bytes then
      if hf then
        match futs with
        | [] => (⟨m, .fileReady lines bytes, hf⟩, .stuck)
        | f :: rest => pollWrite ⟨m, .rotating f, false⟩ buf rest wr
      else (⟨m, .fileReady lines bytes, hf⟩, .panic)
    else
      if hf then
        match wr with
        | .ok n =>
          (⟨m, .fileReady (lines + countlines (buf.take n)) (bytes + n), hf⟩, .ok n)
        | .err e => (⟨m, .fileReady lines bytes, hf⟩, .err e)
      else (⟨m, .fileReady lines bytes, hf⟩, .panic)
  | ⟨m, .rotating ⟨s + 1, r⟩, hf⟩, _, _, _ => (⟨m, .rotating ⟨s, r⟩, hf⟩, .pending)
  | ⟨m, .rotating ⟨0, .ok⟩, _⟩, buf, futs, wr =>
    pollWrite ⟨m, .fileReady 0 0, true⟩ buf futs wr
  | ⟨m, .rotating ⟨0, .err e⟩, hf⟩, _, _, _ => (⟨m, .rotating ⟨0, .err e⟩, hf⟩, .err e)
termination_by w _ futs _ => (futs.length, w.state.rank)
decreasing_by
  · apply Prod.Lex.left
    simp
  · apply Prod.Lex.right
    simp [StateFuture.rank]

/-- Model of `RotatingFile::poll_flush` (src/lib.rs).  `fl` is the
outcome of the underlying `poll_flush` on the file (`none` = `Ok(())`). -/
def pollFlush (w : Writer) (fl : Option Nat) : Writer × PollF :=
  match w.state with
  | .fileReady _ _ =>
    if w.hasFile then
      match fl with
      | none => (w, .ok)
      | some e => (w, .err e)
    else (w, .panic)
  | .rotating f =>
    match f.steps with
    | s + 1 => ({ w with state := .rotating ⟨s, f.result⟩ }, .pending)
    | 0 =>
      match f.result with
      | .ok => ({ w with state := .fileReady 0 0, hasFile := true }, .ok)
      | .err e => (w, .err e)

/-- Model of `RotatingFile::poll_shutdown` (src/lib.rs); identical shape
to `poll_flush` with the underlying call being `poll_shutdown`. -/
def pollShutdown (w : Writer) (sd : Option Nat) : Writer × PollF :=
  match w.state with
  | .fileReady _ _ =>
    if w.hasFile then
      match sd with
      | none => (w, .ok)
      | some e => (w, .err e)
    else (w, .panic)
  | .rotating f =>
    match f.steps with
    | s + 1 => ({ w with state := .rotating ⟨s, f.result⟩ }, .pending)
    | 0 =>
      match f.result with
      | .ok => ({ w with state := .fileReady 0 0, hasFile := true }, .ok)
      | .err e => (w, .err e)

/-- Model of `RotatingFile::rotate` (src/lib.rs): replace the state with
`Rotating` over a fresh future, moving the file handle into it
(`self.file.take().unwrap()`).  The `Bool` is true when the `unwrap`
panicked. -/
def rotate (w : Writer) (f : RotFut) : Writer × Bool :=
  if w.hasFile then ({ w with state := .rotating f, hasFile := false }, false)
  else (w, true)

/-- Whether the state is `FileReady`. -/
def StateFuture.isReady : StateFuture → Bool
  | .fileReady _ _ => true
  | .rotating _ => false

/-- The handle invariant: the writer holds the file handle directly iff
it is in the `FileReady` state (in `Rotating` the handle has been moved
into the rotation future). -/
def handleInv (w : Writer) : Prop :=
  w.hasFile = w.state.isReady

/-- Positive rotation threshold: the configured count is at least 1. -/
def positiveThreshold : RotationMode → Prop
  | .lines n => 0 < n
  | .bytes n => 0 < n

/-! ## Rust path-name semantics (final component)

`get_rotate_dest` and `compress` manipulate only the final component of
the path, through `Path::extension`, `PathBuf::set_extension`,
`Path::file_name` and `PathBuf::set_file_name`.  We model a file name as
a `List Char` and reproduce Rust's rules: the extension is the portion
after the last `'.'` of the file name, and is absent when there is no
`'.'` or when the only `'.'` is the leading character; `set_extension`
replaces the portion after the last `'.'` (appending when there is no
extension, and removing the trailing `'.'` when given the empty
extension). -/

/-- Split a file name at its last `'.'`: `some (pre, post)` with
`name = pre ++ '.' :: post` and no `'.'` in `post`; `none` when the name
has no `'.'`. -/
def splitLastDot : List Char → Option (List Char × List Char)
  | [] => none
  | c :: rest =>
    match splitLastDot rest with
    | some (pre, post) => some (c :: pre, post)
    | none => if c = '.' then some ([], rest) else none

/-- Rust `Path::extension` on a file name: the part after the last `'.'`,
absent when there is none or when the last `'.'` is the leading
character. -/
def extensionOf (name : List Char) : Option (List Char) :=
  match splitLastDot name with
  | some ([], _) => none
  | some (_, post) => some post
  | none => none

/-- Rust `Path::file_stem` on a file name. -/
def stemOf (name : List Char) : List Char :=
  match splitLastDot name with
  | some ([], _) => name
  | some (pre, _) => pre
  | none => name

/-- Rust `PathBuf::set_extension` on a file name: keep the stem and
attach the new extension (none when it is empty). -/
def setExtension (name : List Char) (ext : List Char) : List Char :=
  if ext.isEmpty then stemOf name else stemOf name ++ '.' :: ext

/-- Decimal digit character. -/
def digitChar : Nat → Char
  | 0 => '0' | 1 => '1' | 2 => '2' | 3 => '3' | 4 => '4'
  | 5 => '5' | 6 => '6' | 7 => '7' | 8 => '8' | _ => '9'

/-- Decimal digits of `n`, most significant first (`fuel` bounds the
recursion; `natDigits` supplies enough). -/
def natDigitsGo (fuel : Nat) (n : Nat) (acc : List Char) : List Char :=
  match fuel with
  | 0 => acc
  | fuel + 1 =>
    if n < 10 then digitChar n :: acc
    else natDigitsGo fuel (n / 10) (digitChar (n % 10) :: acc)

def natDigits (n : Nat) : List Char := natDigitsGo n n []

/-- Zero-pad the decimal rendering of `n` to width `w`. -/
def padTo (w : Nat) (n : Nat) : List Char :=
  List.replicate (w - (natDigits n).length) '0' ++ natDigits n

/-- The string produced by chrono's `format("-%Y-%m-%d_%H-%M-%S")` for
local-time fields `y-mo-d h:mi:s`: a literal `-YYYY-MM-DD_HH-MM-SS`
suffix. -/
def formatTimestamp (y mo d h mi s : Nat) : List Char :=
  '-' :: padTo 4 y ++ '-' :: padTo 2 mo ++ '-' :: padTo 2 d ++
    '_' :: padTo 2 h ++ '-' :: padTo 2 mi ++ '-' :: padTo 2 s

/-- Model of `RotatingFile::get_rotate_dest` on the final path component;
`ts` is the formatted timestamp appended to the stem.  `none` models the
panic of `path.extension().unwrap()` when the name has no extension.
Step by step as in the source: read the extension (unwrap), drop it
(`set_extension("")`), append the timestamp to the file name, and
re-attach the extension (`set_extension(extension)`). -/
def get_rotate_dest (name ts : List Char) : Option (List Char) :=
  match extensionOf name with
  | none => none
  | some ext =>
    let base := setExtension name []
    let filename := base ++ ts
    some (setExtension filename ext)

/-- The compressed-output name computed at the start of
`RotatingFile::compress`: read the extension (unwrap — `none` models the
panic), push `".gz"` onto it, and `set_extension` with the result. -/
def gzName (name : List Char) : Option (List Char) :=
  match extensionOf name with
  | none => none
  | some ext => some (setExtension name (ext ++ ['.', 'g', 'z']))

/-! ## File-system model, constructor and rotation unit

A path is its list of components (each a file name as `List Char`); the
file system carries the set of existing directories and a map from paths
to file contents (bytes as `Nat`).  Fallible operations take their
outcome from an explicit oracle, so every failure interleaving of the
rotation unit can be examined. -/

/-- A path: directory components followed by the file name. -/
abbrev PathC := List (List Char)

/-- I/O error causes distinguished by the model. -/
inductive IoErr : Type
  | isDirectory | syncErr | renameErr | openInErr | createOutErr
  | writeErr | finishErr | removeErr | openNewErr
deriving DecidableEq

/-- File-system state: existing directories and files with contents. -/
structure FS where
  dirs : List PathC
  files : List (PathC × List Nat)
deriving DecidableEq

/-- Content of the file at `p`, when it exists. -/
def lookupFile (fs : FS) (p : PathC) : Option (List Nat) :=
  (fs.files.find? (fun e => e.1 == p)).map (fun e => e.2)

/-- Remove the file at `p` (`remove_file` / the source side of `rename`). -/
def removeFile (fs : FS) (p : PathC) : FS :=
  { fs with files := fs.files.filter (fun e => e.1 != p) }

/-- Create or overwrite the file at `p` with content `c`. -/
def writeFile (fs : FS) (p : PathC) (c : List Nat) : FS :=
  { fs with files := (p, c) :: (removeFile fs p).files }

/-- Rust `Path::parent` of a path in components. -/
def parentOf (p : PathC) : PathC := p.dropLast

/-- Model of `tokio::fs::create_dir_all` on `d` (no-op on the empty path, which is
what `parent()` yields for a bare file name). -/
def createDirAll (fs : FS) (d : PathC) : FS :=
  if d = [] then fs
  else if d ∈ fs.dirs then fs
  else { fs with dirs := d :: fs.dirs }

/-- The startup scan of `RotatingFile::new`: stream the existing file in
1024-byte chunks, accumulating `(lines, bytes)` by `countlines` of each
chunk and the chunk length, until a read returns 0. -/
def scanChunks (c : List Nat) : Nat × Nat :=
  if h : c = [] then (0, 0)
  else
    let rest := scanChunks (c.drop 1024)
    (countlines (c.take 1024) + rest.1, (c.take 1024).length + rest.2)
termination_by c.length
decreasing_by
  have : 0 < c.length := List.length_pos.mpr h
  simp
  omega

/-- Result of a successful construction: the file system afterwards and
the seeded line/byte counters. -/
structure NewResult where
  fs : FS
  lines : Nat
  bytes : Nat
deriving DecidableEq

/-- Model of `RotatingFile::new` (src/lib.rs): scan a pre-existing file
at `path` for its line/byte counts (counts stay zero when `File::open`
fails because there is no file), `create_dir_all` the parent directory,
then open the file write/create/append — an error, not a panic, when the
path cannot be opened as a file (e.g. it is a directory).  The rotation
mode is stored unchanged and plays no part here. -/
def new (fs : FS) (p : PathC) (_mode : RotationMode) : Except IoErr NewResult :=
  let counts :=
    match lookupFile fs p with
    | some c => scanChunks c
    | none => (0, 0)
  let fs1 := createDirAll fs (parentOf p)
  if p ∈ fs1.dirs then .error .isDirectory
  else
    match lookupFile fs1 p with
    | some _ => .ok ⟨fs1, counts.1, counts.2⟩
    | none => .ok ⟨writeFile fs1 p [], counts.1, counts.2⟩

/-- The concrete empty file system. -/
def fs0 : FS := ⟨[], []⟩

/-- The concrete path `out/a.log`. -/
def pLog : PathC := ["out".toList, "a.log".toList]

/-- A file system with `out/a.log` already containing `"a\n"`. -/
def fsA : FS := ⟨[], [(pLog, [97, 10])]⟩

/-! ## The rotation unit of work (`rotate_fut` / `compress`) -/

/-- Trace events of the rotation unit of work (recorded for operations
that succeed). -/
inductive Ev : Type
  | sync
  | rename
  | read (i : Nat)
  | write (i : Nat)
  | finish
  | remove
  | openNew
deriving DecidableEq

/-- Phase of an event within the rotation sequence: sync, rename,
compress (read/write chunks), finalize, delete, re-open. -/
def Ev.phase : Ev → Nat
  | .sync => 0
  | .rename => 1
  | .read _ => 2
  | .write _ => 2
  | .finish => 3
  | .remove => 4
  | .openNew => 5

/-- A trace whose events appear in non-decreasing phase order. -/
def ordered (tr : List Ev) : Prop :=
  tr.Pairwise (fun a b => a.phase ≤ b.phase)

/-- Apply `f` to the final component of `p`. -/
def withLastName (p : PathC) (f : List Char → Option (List Char)) : Option PathC :=
  match p.getLast? with
  | none => none
  | some n => (f n).map (fun n2 => p.dropLast ++ [n2])

/-- Lift of `get_rotate_dest` to a full path (only the file name changes; the
directory components are preserved by `set_file_name`). -/
def getRotateDestP (p : PathC) (ts : List Char) : Option PathC :=
  withLastName p (fun n => get_rotate_dest n ts)

/-- The `.gz` output path computed at the start of `compress`. -/
def gzPathOf (p : PathC) : Option PathC :=
  withLastName p gzName

/-- The 4096-byte chunks of a content; `fuel` bounds the recursion and
`chunks4096` supplies enough. -/
def chunksGo (fuel : Nat) (c : List Nat) : List (List Nat) :=
  match fuel with
  | 0 => []
  | fuel + 1 => if c.isEmpty then [] else c.take 4096 :: chunksGo fuel (c.drop 4096)

def chunks4096 (c : List Nat) : List (List Nat) := chunksGo c.length c

/-- Failure injection for one `compress` run: whether opening the input
succeeds, whether creating the `.gz` output succeeds, an optional chunk
index whose `write_all` fails, and whether `finish` and `remove_file`
succeed. -/
structure CompressOracle where
  openInOk : Bool
  createOutOk : Bool
  writeFail : Option Nat
  finishOk : Bool
  removeOk : Bool
deriving DecidableEq

/-- The read/write loop of `compress`: feed the chunks (numbered from
`i`) to the encoder, with `wf` injecting a failing chunk write.  Returns
the trace, the bytes accepted by the encoder, and whether a chunk write
failed. -/
def feedChunks (wf : Option Nat) (i : Nat) : List (List Nat) → List Ev × List Nat × Bool
  | [] => ([], [], false)
  | c :: cs =>
    if wf = some i then ([.read i], [], true)
    else
      let r := feedChunks wf (i + 1) cs
      (.read i :: .write i :: r.1, c ++ r.2.1, r.2.2)

/-- Outcome of `compress` / `rotate_fut`: a panic (a failing `unwrap`),
an I/O error, or success. -/
inductive COut : Type
  | panic
  | fail (e : IoErr)
  | ok
deriving DecidableEq

/-- Whether the encoder stage of `compress` itself fails for content
`c` — a chunk `write_all` or the final `finish`. -/
def encoderFails (o : CompressOracle) (c : List Nat) : Bool :=
  (feedChunks o.writeFail 0 (chunks4096 c)).2.2 || !o.finishOk

/-- Model of `RotatingFile::compress` (src/lib.rs): derive the `.gz`
output path (`extension().unwrap()` — panic when absent), open the input
file for reading, create (truncating) the output file, stream the input
in 4096-byte chunks through the encoder, and at end of input `finish`
the encoder and only then `remove_file` the input.  Each failure aborts
with an error at that point (`?` propagation); the resulting file system
is returned alongside. -/
def compress (fs : FS) (p : PathC) (o : CompressOracle) : List Ev × COut × FS :=
  match gzPathOf p with
  | none => ([], .panic, fs)
  | some out =>
    match lookupFile fs p, o.openInOk with
    | none, _ => ([], .fail .openInErr, fs)
    | some _, false => ([], .fail .openInErr, fs)
    | some c, true =>
      if o.createOutOk then
        let fs1 := writeFile fs out []
        let r := feedChunks o.writeFail 0 (chunks4096 c)
        let fs2 := writeFile fs1 out r.2.1
        if r.2.2 then (r.1, .fail .writeErr, fs2)
        else if o.finishOk then
          if o.removeOk then (r.1 ++ [.finish, .remove], .ok, removeFile fs2 p)
          else (r.1 ++ [.finish], .fail .removeErr, fs2)
        else (r.1, .fail .finishErr, fs2)
      else ([], .fail .createOutErr, fs)

/-- Failure injection for one `rotate_fut` run. -/
structure RotOracle where
  syncOk : Bool
  renameOk : Bool
  comp : CompressOracle
  openNewOk : Bool
deriving DecidableEq

/-- Model of `RotatingFile::rotate_fut` (src/lib.rs): durably sync the
outgoing file, derive the timestamped destination (`get_rotate_dest`,
which may panic), rename the file there, `compress` the renamed archive,
and re-open a fresh append-mode file at the original path.  Each failing
step ends the run with its error (`?` propagation). -/
def rotate_fut (fs : FS) (p : PathC) (ts : List Char) (o : RotOracle) :
    List Ev × COut × FS :=
  if o.syncOk then
    match getRotateDestP p ts with
    | none => ([.sync], .panic, fs)
    | some target =>
      match lookupFile fs p, o.renameOk with
      | some c, true =>
        let fs1 := writeFile (removeFile fs p) target c
        let r := compress fs1 target o.comp
        match r.2.1 with
        | .ok =>
          if o.openNewOk then
            (.sync :: .rename :: r.1 ++ [.openNew], .ok, writeFile r.2.2 p [])
          else (.sync :: .rename :: r.1, .fail .openNewErr, r.2.2)
        | .fail e => (.sync :: .rename :: r.1, .fail e, r.2.2)
        | .panic => (.sync :: .rename :: r.1, .panic, r.2.2)
      | _, _ => ([.sync], .fail .renameErr, fs)
  else ([], .fail .syncErr, fs)

/-- A concrete timestamp string. -/
def tsW : List Char := formatTimestamp 2024 1 2 3 4 5

/-- The archive destination computed for `out/a.log` at `tsW`. -/
def targetW : PathC := ["out".toList, "a".toList ++ tsW ++ '.' :: "log".toList]

/-- The compressed output path for `targetW`. -/
def outW : PathC :=
  ["out".toList, "a".toList ++ tsW ++ '.' :: ("log".toList ++ ['.', 'g', 'z'])]

/-- An oracle whose only failure is the encoder finalize. -/
def oW : RotOracle := ⟨true, true, ⟨true, true, none, false, true⟩, true⟩

/-- The concrete extensionless path `out/logfile`. -/
def pNoExt : PathC := ["out".toList, "logfile".toList]

/-- C2: when the rotation future has completed with an error, the waiting
`poll_write` / `poll_flush` / `poll_shutdown` call returns exactly that
error (no error is swallowed), the writer still holds no file handle
(`file` is `None`), and the writer value is unchanged — so every further
write on the instance again takes the same failing branch and fails,
until externally recovered. -/
theorem rotation_error_propagates_and_fatal (m : RotationMode) (e : Nat)
    (buf : List Nat) (futs : List RotFut) (wr : WriteRes) (fl sd : Option Nat) :
    pollWrite ⟨m, .rotating ⟨0, .err e⟩, false⟩ buf futs wr
        = (⟨m, .rotating ⟨0, .err e⟩, false⟩, .err e) ∧
    pollFlush ⟨m, .rotating ⟨0, .err e⟩, false⟩ fl
        = (⟨m, .rotating ⟨0, .err e⟩, false⟩, .err e) ∧
    pollShutdown ⟨m, .rotating ⟨0, .err e⟩, false⟩ sd
        = (⟨m, .rotating ⟨0, .err e⟩, false⟩, .err e) ∧
    (⟨m, .rotating ⟨0, .err e⟩, false⟩ : Writer).hasFile = false := by
  refine ⟨?_, rfl, rfl, rfl⟩
  simp [pollWrite]

/-- C3: a write attempted in `FileReady` whose underlying file write
fails returns the error immediately; the counters, the state and the
file handle are unchanged, so the caller may retry the same bytes. -/
theorem write_error_leaves_writer_ready (m : RotationMode) (lines bytes e : Nat)
    (buf : List Nat) (futs : List RotFut)
    (h : shouldrotate m lines bytes = false) :
    pollWrite ⟨m, .fileReady lines bytes, true⟩ buf futs (.err e)
        = (⟨m, .fileReady lines bytes, true⟩, .err e) := by
  cases futs <;> simp [pollWrite, h]

theorem write_error_leaves_writer_ready_witness :
    shouldrotate (.lines 5) 0 0 = false ∧
    pollWrite ⟨.lines 5, .fileReady 0 0, true⟩ [49] [] (.err 7)
        = (⟨.lines 5, .fileReady 0 0, true⟩, .err 7) :=
  ⟨by decide, write_error_leaves_writer_ready (.lines 5) 0 0 7 [49] [] (by decide)⟩

/-- C5: a successful write accepting `n` bytes of the submitted buffer
increases the byte counter by exactly `n` and the line counter by exactly
the number of newline bytes in the first `n` bytes of the buffer (a
partial write credits only the bytes actually written), and returns `n`. -/
theorem write_ok_updates_counters (m : RotationMode) (lines bytes n : Nat)
    (buf : List Nat) (futs : List RotFut)
    (h : shouldrotate m lines bytes = false) (hn : n ≤ buf.length) :
    pollWrite ⟨m, .fileReady lines bytes, true⟩ buf futs (.ok n)
        = (⟨m, .fileReady (lines + countlines (buf.take n)) (bytes + n), true⟩, .ok n) := by
  cases futs <;> simp [pollWrite, h]

theorem write_ok_updates_counters_witness :
    shouldrotate (.bytes 10) 0 0 = false ∧ (2 : Nat) ≤ ([97, 10, 98] : List Nat).length ∧
    pollWrite ⟨.bytes 10, .fileReady 0 0, true⟩ [97, 10, 98] [] (.ok 2)
        = (⟨.bytes 10, .fileReady 1 2, true⟩, .ok 2) :=
  ⟨by decide, by decide, by
    simpa [countlines] using
      write_ok_updates_counters (.bytes 10) 0 0 2 [97, 10, 98] [] (by decide) (by decide)⟩

/-- C4 counterexample: with the configured threshold `Lines 0`, a write
that finds the threshold exceeded rotates, and after the rotation
succeeds the counters reset to `(0, 0)` — which again satisfies
`lines >= 0`, so the writer immediately starts a second rotation instead
of writing the buffered bytes.  Here the first rotation resolves
successfully, a second rotation is begun, and the buffered write is still
unserviced (the poll returns `Pending` in the `Rotating` state having
consumed two rotation futures). -/
theorem retry_loop_zero_threshold_cex :
    pollWrite ⟨.lines 0, .fileReady 0 0, true⟩ [49, 10] [⟨0, .ok⟩, ⟨1, .ok⟩] (.ok 2)
        = (⟨.lines 0, .rotating ⟨0, .ok⟩, false⟩, .pending) := by
  simp [pollWrite, shouldrotate]

/-- C4 (amended to positive thresholds): for every configured threshold
of at least 1, a write that finds the threshold exceeded starts exactly
one rotation; once that rotation succeeds the counters are reset to zero,
the writer returns to `FileReady`, and the same buffered bytes are
written to the freshly opened file, with the retry loop terminating.  The
single supplied future is the one rotation started; after the reset the
threshold check fails (`0 < threshold`) so no further rotation begins. -/
theorem retry_loop_positive_threshold (m : RotationMode) (lines bytes n : Nat)
    (buf : List Nat)
    (hpos : positiveThreshold m)
    (hrot : shouldrotate m lines bytes = true)
    (hn : n ≤ buf.length) :
    pollWrite ⟨m, .fileReady lines bytes, true⟩ buf [⟨0, .ok⟩] (.ok n)
        = (⟨m, .fileReady (countlines (buf.take n)) n, true⟩, .ok n) := by
  have h0 : shouldrotate m 0 0 = false := by
    cases m <;> simp [shouldrotate, positiveThreshold] at hpos ⊢ <;> omega
  simp [pollWrite, hrot, h0]

theorem retry_loop_positive_threshold_witness :
    positiveThreshold (.lines 1) ∧ shouldrotate (.lines 1) 3 6 = true ∧
    (2 : Nat) ≤ ([97, 10] : List Nat).length ∧
    pollWrite ⟨.lines 1, .fileReady 3 6, true⟩ [97, 10] [⟨0, .ok⟩] (.ok 2)
        = (⟨.lines 1, .fileReady 1 2, true⟩, .ok 2) :=
  ⟨by simp [positiveThreshold], by decide, by decide, by
    simpa [countlines] using
      retry_loop_positive_threshold (.lines 1) 3 6 2 [97, 10]
        (by simp [positiveThreshold]) (by decide) (by decide)⟩

theorem handleInv_pollWrite (w : Writer) (buf : List Nat) (futs : List RotFut)
    (wr : WriteRes) (hw : handleInv w) : handleInv (pollWrite w buf futs wr).1 := by
  induction w, buf, futs, wr using pollWrite.induct <;>
    (try cases ‹WriteRes›) <;> (try cases ‹List RotFut›) <;>
    simp_all [pollWrite, handleInv, StateFuture.isReady]

/-- C8: every operation preserves the handle invariant: in `FileReady`
the writer holds the file handle directly, in `Rotating` it holds none
(the handle was moved into the rotation task) — never both, never
neither. -/
theorem handle_invariant_preserved (w : Writer) (buf : List Nat) (futs : List RotFut)
    (wr : WriteRes) (fl sd : Option Nat) (f : RotFut) (hw : handleInv w) :
    handleInv (pollWrite w buf futs wr).1 ∧ handleInv (pollFlush w fl).1 ∧
    handleInv (pollShutdown w sd).1 ∧ handleInv (rotate w f).1 := by
  refine ⟨handleInv_pollWrite w buf futs wr hw, ?_, ?_, ?_⟩ <;>
    obtain ⟨m, st, hf⟩ := w
  · cases st with
    | fileReady l b => cases fl <;> simp_all [pollFlush, handleInv, StateFuture.isReady]
    | rotating g =>
      obtain ⟨s, r⟩ := g
      cases s <;> cases r <;> simp_all [pollFlush, handleInv, StateFuture.isReady]
  · cases st with
    | fileReady l b => cases sd <;> simp_all [pollShutdown, handleInv, StateFuture.isReady]
    | rotating g =>
      obtain ⟨s, r⟩ := g
      cases s <;> cases r <;> simp_all [pollShutdown, handleInv, StateFuture.isReady]
  · cases st <;> simp_all [rotate, handleInv, StateFuture.isReady]

theorem handle_invariant_preserved_witness :
    handleInv ⟨.lines 2, .fileReady 0 0, true⟩ ∧
    (handleInv (pollWrite ⟨.lines 2, .fileReady 0 0, true⟩ [10] [] (.ok 1)).1 ∧
     handleInv (pollFlush ⟨.lines 2, .fileReady 0 0, true⟩ none).1 ∧
     handleInv (pollShutdown ⟨.lines 2, .fileReady 0 0, true⟩ none).1 ∧
     handleInv (rotate ⟨.lines 2, .fileReady 0 0, true⟩ ⟨1, .ok⟩).1) :=
  ⟨by simp [handleInv, StateFuture.isReady],
   handle_invariant_preserved ⟨.lines 2, .fileReady 0 0, true⟩ [10] [] (.ok 1)
     none none ⟨1, .ok⟩ (by simp [handleInv, StateFuture.isReady])⟩

theorem splitLastDot_of_not_mem (s : List Char) (h : '.' ∉ s) :
    splitLastDot s = none := by
  induction s with
  | nil => rfl
  | cons c rest ih =>
    simp only [List.mem_cons, not_or] at h
    simp [splitLastDot, ih h.2, h.1, Ne.symm h.1]

theorem splitLastDot_append (pre post : List Char) (h : '.' ∉ post) :
    splitLastDot (pre ++ '.' :: post) = some (pre, post) := by
  induction pre with
  | nil => simp [splitLastDot, splitLastDot_of_not_mem post h]
  | cons c rest ih => simp [splitLastDot, ih]

theorem digitChar_ne_dot (k : Nat) : digitChar k ≠ '.' := by
  unfold digitChar
  split <;> decide

theorem mem_natDigitsGo (fuel n : Nat) (acc : List Char) (c : Char)
    (hc : c ∈ natDigitsGo fuel n acc) : c ∈ acc ∨ ∃ k, c = digitChar k := by
  induction fuel generalizing n acc with
  | zero => exact Or.inl hc
  | succ fuel ih =>
    simp only [natDigitsGo] at hc
    by_cases hn : n < 10
    · simp [hn] at hc
      rcases hc with hc | hc
      · exact Or.inr ⟨n, hc⟩
      · exact Or.inl hc
    · simp [hn] at hc
      rcases ih _ _ hc with hc | hc
      · simp at hc
        rcases hc with hc | hc
        · exact Or.inr ⟨n % 10, hc⟩
        · exact Or.inl hc
      · exact Or.inr hc

theorem dot_not_mem_padTo (w n : Nat) : '.' ∉ padTo w n := by
  intro h
  simp only [padTo, List.mem_append] at h
  rcases h with h | h
  · exact absurd (List.eq_of_mem_replicate h) (by decide)
  · rcases mem_natDigitsGo n n [] '.' h with h | ⟨k, hk⟩
    · simp at h
    · exact digitChar_ne_dot k hk.symm

theorem dot_not_mem_formatTimestamp (y mo d h mi s : Nat) :
    '.' ∉ formatTimestamp y mo d h mi s := by
  intro hmem
  simp only [formatTimestamp, List.mem_append, List.mem_cons] at hmem
  have hy := dot_not_mem_padTo 4 y
  have hmo := dot_not_mem_padTo 2 mo
  have hd := dot_not_mem_padTo 2 d
  have hh := dot_not_mem_padTo 2 h
  have hmi := dot_not_mem_padTo 2 mi
  have hs := dot_not_mem_padTo 2 s
  have e1 : ('.' : Char) ≠ '-' := by decide
  have e2 : ('.' : Char) ≠ '_' := by decide
  simp_all

theorem splitLastDot_cons_append (c0 : Char) (pre0 post : List Char) (h : '.' ∉ post) :
    splitLastDot (c0 :: (pre0 ++ '.' :: post)) = some (c0 :: pre0, post) := by
  simpa using splitLastDot_append (c0 :: pre0) post h

theorem extensionOf_cons_append (c0 : Char) (stem0 ext : List Char) (hext : '.' ∉ ext) :
    extensionOf (c0 :: (stem0 ++ '.' :: ext)) = some ext := by
  simp [extensionOf, splitLastDot_cons_append c0 stem0 ext hext]

theorem stemOf_cons_append (c0 : Char) (stem0 ext : List Char) (hext : '.' ∉ ext) :
    stemOf (c0 :: (stem0 ++ '.' :: ext)) = c0 :: stem0 := by
  simp [stemOf, splitLastDot_cons_append c0 stem0 ext hext]

theorem stemOf_of_not_mem (s : List Char) (h : '.' ∉ s) : stemOf s = s := by
  simp [stemOf, splitLastDot_of_not_mem s h]

/-- C9 counterexample: for the configured file name `app.2.log` — a file
name with an extension (`log`) whose stem (`app.2`) itself contains a
dot — the archive name computed by `get_rotate_dest` is `app.log`, not
stem + timestamp + original extension: the final `set_extension` replaces
everything after the LAST dot of `stem ++ timestamp`, destroying the
`.2` part and the whole timestamp. -/
theorem archive_name_multidot_cex :
    get_rotate_dest ("app.2.log".toList) (formatTimestamp 2024 1 2 3 4 5)
        = some ("app.log".toList) ∧
    stemOf ("app.2.log".toList) = "app.2".toList ∧
    extensionOf ("app.2.log".toList) = some ("log".toList) ∧
    "app.log".toList ≠
      "app.2".toList ++ formatTimestamp 2024 1 2 3 4 5 ++ '.' :: "log".toList := by
  refine ⟨by decide, by decide, by decide, by decide⟩

/-- C9 (amended to dot-free stems): for every configured file name of
the form `stem.ext` where the stem is nonempty and neither stem nor
extension contains a dot, the rotated archive name is the stem, then the
literal `-YYYY-MM-DD_HH-MM-SS` timestamp, then the original extension;
and the compressed archive carries the same name with `.gz` appended
after (not replacing) the original extension. -/
theorem archive_name_format (c0 e0 : Char) (stem0 ext0 : List Char) (y mo d h mi s : Nat)
    (hsd : '.' ∉ (c0 :: stem0)) (hed : '.' ∉ (e0 :: ext0)) :
    get_rotate_dest ((c0 :: stem0) ++ '.' :: (e0 :: ext0)) (formatTimestamp y mo d h mi s)
        = some (((c0 :: stem0) ++ formatTimestamp y mo d h mi s) ++ '.' :: (e0 :: ext0)) ∧
    gzName (((c0 :: stem0) ++ formatTimestamp y mo d h mi s) ++ '.' :: (e0 :: ext0))
        = some (((c0 :: stem0) ++ formatTimestamp y mo d h mi s)
            ++ '.' :: ((e0 :: ext0) ++ ['.', 'g', 'z'])) := by
  have hts : '.' ∉ formatTimestamp y mo d h mi s := dot_not_mem_formatTimestamp y mo d h mi s
  have hst : ('.' : Char) ∉ c0 :: (stem0 ++ formatTimestamp y mo d h mi s) := by
    intro h1
    rcases List.mem_cons.mp h1 with h1 | h1
    · exact hsd (List.mem_cons.mpr (Or.inl h1))
    · rcases List.mem_append.mp h1 with h1 | h1
      · exact hsd (List.mem_cons_of_mem c0 h1)
      · exact hts h1
  have h1 : extensionOf (c0 :: (stem0 ++ '.' :: (e0 :: ext0))) = some (e0 :: ext0) :=
    extensionOf_cons_append c0 stem0 (e0 :: ext0) hed
  have h2 : stemOf (c0 :: (stem0 ++ '.' :: (e0 :: ext0))) = c0 :: stem0 :=
    stemOf_cons_append c0 stem0 (e0 :: ext0) hed
  have h3 : stemOf (c0 :: (stem0 ++ formatTimestamp y mo d h mi s))
      = c0 :: (stem0 ++ formatTimestamp y mo d h mi s) := stemOf_of_not_mem _ hst
  have h4 : extensionOf (c0 :: ((stem0 ++ formatTimestamp y mo d h mi s)
      ++ '.' :: (e0 :: ext0))) = some (e0 :: ext0) :=
    extensionOf_cons_append c0 (stem0 ++ formatTimestamp y mo d h mi s) (e0 :: ext0) hed
  have h5 : stemOf (c0 :: ((stem0 ++ formatTimestamp y mo d h mi s)
      ++ '.' :: (e0 :: ext0))) = c0 :: (stem0 ++ formatTimestamp y mo d h mi s) :=
    stemOf_cons_append c0 (stem0 ++ formatTimestamp y mo d h mi s) (e0 :: ext0) hed
  constructor
  · simp [get_rotate_dest, setExtension, h1, h2, h3]
  · simp only [List.cons_append, List.append_assoc] at h4 h5 ⊢
    simp [gzName, setExtension, h4, h5]

theorem archive_name_format_witness :
    ('.' ∉ ('f' :: "ile".toList)) ∧ ('.' ∉ ('l' :: "og".toList)) ∧
    (get_rotate_dest (('f' :: "ile".toList) ++ '.' :: ('l' :: "og".toList))
        (formatTimestamp 2024 1 2 3 4 5)
      = some ((('f' :: "ile".toList) ++ formatTimestamp 2024 1 2 3 4 5)
          ++ '.' :: ('l' :: "og".toList)) ∧
     gzName ((('f' :: "ile".toList) ++ formatTimestamp 2024 1 2 3 4 5)
        ++ '.' :: ('l' :: "og".toList))
      = some ((('f' :: "ile".toList) ++ formatTimestamp 2024 1 2 3 4 5)
          ++ '.' :: (('l' :: "og".toList) ++ ['.', 'g', 'z']))) :=
  ⟨by decide, by decide,
   archive_name_format 'f' 'l' "ile".toList "og".toList 2024 1 2 3 4 5
     (by decide) (by decide)⟩

theorem countlines_append (a b : List Nat) :
    countlines (a ++ b) = countlines a + countlines b := by
  simp [countlines, List.filter_append]

theorem scanChunks_eq_aux (n : Nat) :
    ∀ c : List Nat, c.length ≤ n → scanChunks c = (countlines c, c.length) := by
  induction n with
  | zero =>
    intro c hc
    have hnil : c = [] := List.eq_nil_of_length_eq_zero (Nat.le_zero.mp hc)
    subst hnil
    simp [scanChunks, countlines]
  | succ n ih =>
    intro c hc
    by_cases h : c = []
    · subst h; simp [scanChunks, countlines]
    · rw [scanChunks]
      simp only [h, dite_false]
      have hlen : (c.drop 1024).length ≤ n := by
        have hpos : 0 < c.length := List.length_pos.mpr h
        simp
        omega
      rw [ih _ hlen]
      conv_rhs => rw [← List.take_append_drop 1024 c]
      rw [countlines_append, List.length_append]

theorem scanChunks_eq (c : List Nat) : scanChunks c = (countlines c, c.length) :=
  scanChunks_eq_aux c.length c le_rfl

theorem lookupFile_createDirAll (fs : FS) (d : PathC) (p : PathC) :
    lookupFile (createDirAll fs d) p = lookupFile fs p := by
  unfold createDirAll lookupFile
  split
  · rfl
  · split <;> rfl

/-- C6: on construction against a path at which a file with content `c`
exists, the counters are seeded with exactly `c`'s newline count and
byte count, and the file's content is unchanged by the scan and the
append-mode open; when no file exists, the counters start at zero. -/
theorem new_recovers_counts (fs : FS) (p : PathC) (c : List Nat) (m : RotationMode)
    (hnotdir : p ∉ (createDirAll fs (parentOf p)).dirs) :
    (lookupFile fs p = some c →
      new fs p m = .ok ⟨createDirAll fs (parentOf p), countlines c, c.length⟩ ∧
      lookupFile (createDirAll fs (parentOf p)) p = some c) ∧
    (lookupFile fs p = none →
      new fs p m = .ok ⟨writeFile (createDirAll fs (parentOf p)) p [], 0, 0⟩) := by
  constructor
  · intro hc
    have hc1 : lookupFile (createDirAll fs (parentOf p)) p = some c := by
      rw [lookupFile_createDirAll]; exact hc
    refine ⟨?_, hc1⟩
    simp [new, hc, hc1, scanChunks_eq, hnotdir]
  · intro hc
    have hc1 : lookupFile (createDirAll fs (parentOf p)) p = none := by
      rw [lookupFile_createDirAll]; exact hc
    simp [new, hc, hc1, hnotdir]

theorem new_recovers_counts_witness :
    (pLog ∉ (createDirAll fsA (parentOf pLog)).dirs) ∧
    lookupFile fsA pLog = some [97, 10] ∧
    (new fsA pLog (.lines 1)
        = .ok ⟨createDirAll fsA (parentOf pLog), countlines [97, 10],
            ([97, 10] : List Nat).length⟩ ∧
     lookupFile (createDirAll fsA (parentOf pLog)) pLog = some [97, 10]) :=
  ⟨by decide, by decide,
   (new_recovers_counts fsA pLog [97, 10] (.lines 1) (by decide)).1 (by decide)⟩

/-- C7 counterexample: constructing against `out/a.log` on an empty file
system — where the parent directory `out` does not exist — succeeds and
creates `out`: the constructor calls `create_dir_all` on the parent
rather than expecting it to already exist. -/
theorem new_creates_parent_dir_cex :
    parentOf pLog ∉ fs0.dirs ∧
    new fs0 pLog (.lines 1)
      = .ok ⟨⟨[["out".toList]], [(pLog, [])]⟩, 0, 0⟩ ∧
    parentOf pLog ∈ (createDirAll fs0 (parentOf pLog)).dirs := by
  refine ⟨by decide, ?_, by decide⟩
  rfl

/-- C7 (amended): construction creates the configured path's parent
directory (via `create_dir_all`) when the path has one, rather than
expecting it to exist; and constructing against a path that is itself a
directory fails with an error, not a panic. -/
theorem new_parent_creation_and_dir_error (fs : FS) (p : PathC) (m : RotationMode) :
    (p ∈ (createDirAll fs (parentOf p)).dirs → new fs p m = .error .isDirectory) ∧
    (parentOf p ≠ [] → ∀ r, new fs p m = .ok r → parentOf p ∈ r.fs.dirs) := by
  constructor
  · intro hdir
    simp [new, hdir]
  · intro hpar r hok
    have hmem : parentOf p ∈ (createDirAll fs (parentOf p)).dirs := by
      unfold createDirAll
      rw [if_neg hpar]
      split
      · assumption
      · exact List.mem_cons_self _ _
    by_cases hdir : p ∈ (createDirAll fs (parentOf p)).dirs
    · simp [new, hdir] at hok
    · simp only [new, hdir, if_false] at hok
      rcases hfind : lookupFile (createDirAll fs (parentOf p)) p with _ | c <;>
          rw [hfind] at hok <;> simp only [Except.ok.injEq] at hok <;> rw [← hok]
      · simpa [writeFile, removeFile] using hmem
      · exact hmem

theorem new_parent_creation_and_dir_error_witness :
    (parentOf pLog ≠ []) ∧
    (new fs0 pLog (.bytes 2)
        = .ok ⟨⟨[["out".toList]], [(pLog, [])]⟩, 0, 0⟩) ∧
    parentOf pLog ∈ (⟨[["out".toList]], [(pLog, [])]⟩ : FS).dirs :=
  ⟨by decide, by rfl,
   (new_parent_creation_and_dir_error fs0 pLog (.bytes 2)).2 (by decide)
     ⟨⟨[["out".toList]], [(pLog, [])]⟩, 0, 0⟩ (by rfl)⟩

theorem feedChunks_phase (wf : Option Nat) (i : Nat) (cs : List (List Nat)) :
    ∀ e ∈ (feedChunks wf i cs).1, Ev.phase e = 2 := by
  induction cs generalizing i with
  | nil => intro e he; simp [feedChunks] at he
  | cons c cs ih =>
    intro e he
    simp only [feedChunks] at he
    by_cases hw : wf = some i
    · simp [hw] at he
      subst he; rfl
    · simp [hw] at he
      rcases he with he | he | he
      · subst he; rfl
      · subst he; rfl
      · exact ih (i + 1) e he

theorem ordered_of_const (tr : List Ev) (h : ∀ e ∈ tr, Ev.phase e = 2) : ordered tr := by
  induction tr with
  | nil => exact List.Pairwise.nil
  | cons a tr ih =>
    refine List.Pairwise.cons (fun b hb => ?_) (ih fun e he => h e (List.mem_cons_of_mem a he))
    rw [h a (List.mem_cons_self a tr), h b (List.mem_cons_of_mem a hb)]

theorem ordered_feed_append (r1 tail : List Ev) (h : ∀ e ∈ r1, Ev.phase e = 2)
    (ht : ordered tail) (h3 : ∀ b ∈ tail, 3 ≤ Ev.phase b) :
    ordered (r1 ++ tail) := by
  unfold ordered
  rw [List.pairwise_append]
  refine ⟨ordered_of_const r1 h, ht, fun a ha b hb => ?_⟩
  rw [h a ha]
  exact le_trans (by norm_num) (h3 b hb)

theorem compress_ordered (fs : FS) (p : PathC) (o : CompressOracle) :
    ordered (compress fs p o).1 := by
  simp only [compress]
  split
  · exact List.Pairwise.nil
  · split
    · exact List.Pairwise.nil
    · exact List.Pairwise.nil
    · split
      · split
        · exact ordered_of_const _ (feedChunks_phase _ _ _)
        · split
          · split
            · refine ordered_feed_append _ _ (feedChunks_phase _ _ _) ?_ ?_
              · unfold ordered
                refine List.Pairwise.cons (fun b hb => ?_) ?_
                · simp at hb
                  subst hb; decide
                · exact List.pairwise_singleton _ _
              · intro b hb
                simp at hb
                rcases hb with hb | hb <;> subst hb <;> decide
            · refine ordered_feed_append _ _ (feedChunks_phase _ _ _) ?_ ?_
              · exact List.pairwise_singleton _ _
              · intro b hb
                simp at hb
                subst hb; decide
          · exact ordered_of_const _ (feedChunks_phase _ _ _)
      · exact List.Pairwise.nil

theorem compress_phase_bounds (fs : FS) (p : PathC) (o : CompressOracle) :
    ∀ e ∈ (compress fs p o).1, 2 ≤ Ev.phase e ∧ Ev.phase e ≤ 4 := by
  simp only [compress]
  split
  · intro e he; simp at he
  · split
    · intro e he; simp at he
    · intro e he; simp at he
    · split
      · split
        · intro e he
          rw [feedChunks_phase _ _ _ e he]
          exact ⟨le_refl 2, by norm_num⟩
        · split
          · split
            · intro e he
              rcases List.mem_append.mp he with he | he
              · rw [feedChunks_phase _ _ _ e he]
                exact ⟨le_refl 2, by norm_num⟩
              · simp at he
                rcases he with he | he <;> subst he <;> exact ⟨by decide, by decide⟩
            · intro e he
              rcases List.mem_append.mp he with he | he
              · rw [feedChunks_phase _ _ _ e he]
                exact ⟨le_refl 2, by norm_num⟩
              · simp at he
                subst he; exact ⟨by decide, by decide⟩
          · intro e he
            rw [feedChunks_phase _ _ _ e he]
            exact ⟨le_refl 2, by norm_num⟩
      · intro e he; simp at he

theorem ordered_sync_rename_tail (r1 : List Ev) (hr : ordered r1)
    (hb : ∀ e ∈ r1, 2 ≤ Ev.phase e ∧ Ev.phase e ≤ 4) :
    ordered (.sync :: .rename :: r1) := by
  refine List.Pairwise.cons (fun b hb2 => Nat.zero_le _) (List.Pairwise.cons ?_ hr)
  intro b hb2
  exact le_trans (by decide) (hb b hb2).1

theorem ordered_sync_rename_open (r1 : List Ev) (hr : ordered r1)
    (hb : ∀ e ∈ r1, 2 ≤ Ev.phase e ∧ Ev.phase e ≤ 4) :
    ordered (.sync :: .rename :: r1 ++ [.openNew]) := by
  have h1 : ordered (r1 ++ [Ev.openNew]) := by
    unfold ordered
    rw [List.pairwise_append]
    refine ⟨hr, List.pairwise_singleton _ _, fun a ha b hbm => ?_⟩
    simp at hbm
    subst hbm
    exact le_trans (hb a ha).2 (by decide)
  refine List.Pairwise.cons (fun b hb2 => Nat.zero_le _) (List.Pairwise.cons ?_ h1)
  intro b hb2
  rcases List.mem_append.mp hb2 with h2 | h2
  · exact le_trans (by decide) (hb b h2).1
  · simp at h2
    subst h2
    decide

theorem rotate_fut_ordered (fs : FS) (p : PathC) (ts : List Char) (o : RotOracle) :
    ordered (rotate_fut fs p ts o).1 := by
  simp only [rotate_fut]
  split
  · split
    · exact List.pairwise_singleton _ _
    · split
      · split
        · split
          · exact ordered_sync_rename_open _ (compress_ordered _ _ _)
              (compress_phase_bounds _ _ _)
          · exact ordered_sync_rename_tail _ (compress_ordered _ _ _)
              (compress_phase_bounds _ _ _)
        · exact ordered_sync_rename_tail _ (compress_ordered _ _ _)
            (compress_phase_bounds _ _ _)
        · exact ordered_sync_rename_tail _ (compress_ordered _ _ _)
            (compress_phase_bounds _ _ _)
      · exact List.pairwise_singleton _ _
  · exact List.Pairwise.nil

theorem find?_filter_ne (l : List (PathC × List Nat)) (p q : PathC) (h : p ≠ q) :
    (l.filter (fun e => e.1 != q)).find? (fun e => e.1 == p)
      = l.find? (fun e => e.1 == p) := by
  induction l with
  | nil => rfl
  | cons a l ih =>
    by_cases hq : a.1 = q
    · have h1 : (a.1 != q) = false := by simp [hq]
      have h2 : (a.1 == p) = false := by
        rw [beq_eq_false_iff_ne, hq]
        exact fun he => h he.symm
      simp [List.filter_cons, List.find?_cons, h1, h2, ih]
    · have h1 : (a.1 != q) = true := by simp [hq]
      by_cases hap : (a.1 == p) = true
      · simp [List.filter_cons, List.find?_cons, h1, hap]
      · simp only [Bool.not_eq_true] at hap
        simp [List.filter_cons, List.find?_cons, h1, hap, ih]

theorem lookupFile_writeFile (fs : FS) (q : PathC) (d : List Nat) (p : PathC) :
    lookupFile (writeFile fs q d) p = if p = q then some d else lookupFile fs p := by
  unfold lookupFile writeFile removeFile
  by_cases hpq : p = q
  · subst hpq
    simp [List.find?_cons]
  · have hqp : (q == p) = false := by
      rw [beq_eq_false_iff_ne]
      exact fun he => hpq he.symm
    simp only [List.find?_cons, hqp]
    rw [find?_filter_ne fs.files p q hpq]
    simp [hpq]

theorem splitLastDot_eq_append (s : List Char) :
    ∀ pre post, splitLastDot s = some (pre, post) → s = pre ++ '.' :: post := by
  induction s with
  | nil => intro pre post h; simp [splitLastDot] at h
  | cons c rest ih =>
    intro pre post h
    simp only [splitLastDot] at h
    rcases hrest : splitLastDot rest with _ | ⟨pre2, post2⟩ <;> rw [hrest] at h
    · by_cases hc : c = '.'
      · simp [hc] at h
        rcases h with ⟨h1, h2⟩
        subst h1
        subst h2
        rw [hc]
        rfl
      · simp [hc] at h
    · simp at h
      rw [← h.1, ← h.2]
      simpa using congrArg (fun l => c :: l) (ih pre2 post2 hrest)

theorem gzName_length (n n2 : List Char) (h : gzName n = some n2) :
    n2.length = n.length + 3 := by
  simp only [gzName, extensionOf] at h
  rcases hs : splitLastDot n with _ | ⟨pre, post⟩ <;> rw [hs] at h
  · simp at h
  · rcases pre with _ | ⟨c0, pre0⟩
    · simp at h
    · simp only [Option.some.injEq] at h
      have hn : n = (c0 :: pre0) ++ '.' :: post := splitLastDot_eq_append n _ _ hs
      rw [← h]
      simp only [setExtension, stemOf, hs]
      have hne : ((post ++ ['.', 'g', 'z']).isEmpty) = false := by
        cases post <;> rfl
      rw [hne]
      simp only [Bool.false_eq_true, if_false, hn]
      simp
      omega

theorem gzPathOf_ne (p out : PathC) (h : gzPathOf p = some out) : out ≠ p := by
  unfold gzPathOf withLastName at h
  rcases hl : p.getLast? with _ | n <;> rw [hl] at h
  · simp at h
  · simp at h
    obtain ⟨n2, hg, hout⟩ := h
    intro he
    have h2 : out.getLast? = some n2 := by
      rw [← hout]
      exact List.getLast?_concat _
    rw [he, hl] at h2
    have hlen := gzName_length n n2 hg
    simp only [Option.some.injEq] at h2
    rw [← h2] at hlen
    omega

theorem compress_fail_preserves (fs : FS) (p out : PathC) (o : CompressOracle)
    (c : List Nat)
    (hgz : gzPathOf p = some out) (hc : lookupFile fs p = some c)
    (hin : o.openInOk = true) (hcr : o.createOutOk = true)
    (henc : encoderFails o c = true) :
    ((compress fs p o).2.1 = .fail .writeErr ∨
     (compress fs p o).2.1 = .fail .finishErr) ∧
    lookupFile (compress fs p o).2.2 p = some c ∧
    Ev.remove ∉ (compress fs p o).1 := by
  have hne : p ≠ out := fun he => gzPathOf_ne p out hgz he.symm
  have hlook : ∀ acc : List Nat,
      lookupFile (writeFile (writeFile fs out []) out acc) p = some c := by
    intro acc
    rw [lookupFile_writeFile, if_neg hne, lookupFile_writeFile, if_neg hne]
    exact hc
  have hnomem : Ev.remove ∉ (feedChunks o.writeFail 0 (chunks4096 c)).1 := by
    intro hmem
    have := feedChunks_phase o.writeFail 0 (chunks4096 c) _ hmem
    simp [Ev.phase] at this
  simp only [compress, hgz, hc, hin, hcr, if_true]
  by_cases hw : (feedChunks o.writeFail 0 (chunks4096 c)).2.2 = true
  · simp only [hw, if_true]
    exact ⟨Or.inl (by trivial), hlook _, hnomem⟩
  · have hfin : o.finishOk = false := by
      unfold encoderFails at henc
      rcases Bool.or_eq_true_iff.mp henc with h1 | h1
      · exact absurd h1 hw
      · simpa using h1
    simp only [hw, hfin, Bool.false_eq_true, if_false]
    exact ⟨Or.inr (by trivial), hlook _, hnomem⟩

/-- C1: the rotation unit of work performs its steps in non-decreasing
phase order (sync, rename, compress reads/writes, finalize, delete,
re-open) in every execution, and when the compression stage itself (a
chunk write or the finalize) fails, the run ends in an error, the
uncompressed archived file is still present with its full content, and
no delete was performed. -/
theorem rotate_order_and_failed_compress_preserves
    (fs : FS) (p target out : PathC) (ts : List Char) (o : RotOracle) (c : List Nat)
    (hsync : o.syncOk = true)
    (htarget : getRotateDestP p ts = some target)
    (hc : lookupFile fs p = some c)
    (hre : o.renameOk = true)
    (hgz : gzPathOf target = some out)
    (hin : o.comp.openInOk = true)
    (hcr : o.comp.createOutOk = true)
    (henc : encoderFails o.comp c = true) :
    (∀ (fsx : FS) (px : PathC) (tsx : List Char) (ox : RotOracle),
        ordered (rotate_fut fsx px tsx ox).1) ∧
    ((rotate_fut fs p ts o).2.1 = .fail .writeErr ∨
     (rotate_fut fs p ts o).2.1 = .fail .finishErr) ∧
    lookupFile (rotate_fut fs p ts o).2.2 target = some c ∧
    Ev.remove ∉ (rotate_fut fs p ts o).1 := by
  refine ⟨fun fsx px tsx ox => rotate_fut_ordered fsx px tsx ox, ?_⟩
  have hfs1 : lookupFile (writeFile (removeFile fs p) target c) target = some c := by
    rw [lookupFile_writeFile]
    simp
  have hcp := compress_fail_preserves (writeFile (removeFile fs p) target c) target out
    o.comp c hgz hfs1 hin hcr henc
  simp only [rotate_fut, hsync, htarget, hc, hre, if_true]
  rcases hcp.1 with h1 | h1 <;> rw [h1] <;>
    refine ⟨by simp, hcp.2.1, ?_⟩ <;>
    · intro hmem
      rcases List.mem_cons.mp hmem with h2 | h2
      · exact absurd h2 (by decide)
      · rcases List.mem_cons.mp h2 with h3 | h3
        · exact absurd h3 (by decide)
        · exact hcp.2.2 h3

theorem rotate_order_and_failed_compress_preserves_witness :
    (oW.syncOk = true ∧ getRotateDestP pLog tsW = some targetW ∧
     lookupFile fsA pLog = some [97, 10] ∧ oW.renameOk = true ∧
     gzPathOf targetW = some outW ∧ oW.comp.openInOk = true ∧
     oW.comp.createOutOk = true ∧ encoderFails oW.comp [97, 10] = true) ∧
    (((rotate_fut fsA pLog tsW oW).2.1 = .fail .writeErr ∨
      (rotate_fut fsA pLog tsW oW).2.1 = .fail .finishErr) ∧
     lookupFile (rotate_fut fsA pLog tsW oW).2.2 targetW = some [97, 10] ∧
     Ev.remove ∉ (rotate_fut fsA pLog tsW oW).1) :=
  ⟨⟨rfl, by decide, by decide, rfl, by decide, rfl, rfl, by decide⟩,
   (rotate_order_and_failed_compress_preserves fsA pLog targetW outW tsW oW [97, 10]
      rfl (by decide) (by decide) rfl (by decide) rfl rfl (by decide)).2⟩

/-- C10: construction succeeds against a regular-file path without an
extension — `new` never validates the extension — but deriving the
archive name for such a path hits `path.extension().unwrap()` on `None`,
so the rotation triggered by the first threshold-crossing write panics
(right after the successful sync) instead of returning an error. -/
theorem no_extension_accepted_then_rotation_panics
    (fs : FS) (ts : List Char) (o : RotOracle) (hsync : o.syncOk = true) :
    new fs0 pNoExt (.lines 1) = .ok ⟨⟨[["out".toList]], [(pNoExt, [])]⟩, 0, 0⟩ ∧
    extensionOf ("logfile".toList) = none ∧
    getRotateDestP pNoExt ts = none ∧
    (rotate_fut fs pNoExt ts o).2.1 = .panic := by
  refine ⟨by rfl, by rfl, by rfl, ?_⟩
  simp only [rotate_fut, hsync, if_true]
  rfl

theorem no_extension_accepted_then_rotation_panics_witness :
    ((⟨true, true, ⟨true, true, none, true, true⟩, true⟩ : RotOracle).syncOk = true) ∧
    (new fs0 pNoExt (.lines 1) = .ok ⟨⟨[["out".toList]], [(pNoExt, [])]⟩, 0, 0⟩ ∧
     extensionOf ("logfile".toList) = none ∧
     getRotateDestP pNoExt [] = none ∧
     (rotate_fut fsA pNoExt []
        ⟨true, true, ⟨true, true, none, true, true⟩, true⟩).2.1 = .panic) :=
  ⟨rfl, no_extension_accepted_then_rotation_panics fsA []
    ⟨true, true, ⟨true, true, none, true, true⟩, true⟩ rfl⟩

end RotatingFile
